import Mathlib

/-
Verification of the `Cache` class from `src/Cache.ts` (ts-node-cache).

The TypeScript class is shallowly embedded as pure Lean functions over an
explicit state type.  Design of the embedding:

* JavaScript numbers that matter here (TTL arguments, absolute deadlines)
  are modelled by `JSNum`: NaN, +Infinity, -Infinity, or a finite value.
  Finite values are taken in `Int` (millisecond timestamps); none of the
  verified claims depends on fractional milliseconds.  JS comparison and
  addition semantics (`NaN` incomparable, `Infinity + finite = Infinity`,
  ...) are spelled out in `jsLe`, `jsLt`, `jsAdd`.
* The backing object `this._cache` (`Object.create(null)`, string keys) is
  modelled as an association list in property-insertion order; overwriting
  an existing key keeps its position (`setEntry`), deleting removes the
  property (`removeEntry`).  Key enumeration (`Object.keys`, `for..in`)
  follows the ECMAScript own-property order: array-index keys (canonical
  numeric strings below 2^32 - 1) ascending first, then the remaining keys
  in insertion order (`jsOwnKeys`).
* `setTimeout` handles are modelled by `Timer` values stored inside the
  record that owns them, carrying a unique id (allocated from a counter in
  the state), the key/value/callback captured by the closure in `put`, and
  the delay after Node's clamping of out-of-range delays to 1ms
  (`nodeDelay`).  `clearTimeout` is the removal of the handle from the
  state; a timer can fire only while its handle is still stored.
* Exceptions (`throw new Error(...)`) are modelled with `Except String`.
* `Date.now()` is passed in explicitly as the `now : Int` argument of each
  operation.
* The JSON wire format is modelled post-parse: `exportJson` produces the
  plain object as an association list in enumeration order (`expire` being
  a number or the non-number `"NaN"` sentinel, `ExpireField`), and
  `importJson` consumes such a list in its enumeration order.
  `JSON.stringify`/`JSON.parse` round-trip of that object is the identity
  and is not modelled further.  The import loop's
  `cacheToImport.hasOwnProperty(key)` guard is modelled including its JS
  pitfall: a parsed object owning a key named `"hasOwnProperty"` shadows
  the prototype method with a non-function, so the guard throws
  `TypeError` on the first iteration (`shadowsHasOwn`).
* The asynchronous behaviour (a pending `setTimeout` firing, interleaved
  with method calls) is modelled by the labelled transition function
  `step` over `Action`s; a fire step executes the closure from `put`
  (`this._del(key); timeoutCallback?.(key, value)`) and emits an `Event`
  recording the callback invocation.  `Reachable` states are those
  produced by some action sequence from a fresh cache.
-/

namespace TsNodeCache

/-- JavaScript numbers as far as the cache needs them: NaN, the two
infinities, and finite values (restricted to integers). -/
inductive JSNum where
  | nan : JSNum
  | inf : JSNum
  | ninf : JSNum
  | fin (v : Int) : JSNum
deriving DecidableEq

/-- JS `isNaN(x)` for a number `x`. -/
def JSNum.isNaNb : JSNum → Bool
  | .nan => true
  | _ => false

/-- JS `isFinite(x)` for a number `x`. -/
def JSNum.isFiniteb : JSNum → Bool
  | .fin _ => true
  | _ => false

/-- JS `a <= b` on numbers (false whenever either side is NaN). -/
def jsLe : JSNum → JSNum → Bool
  | .nan, _ => false
  | _, .nan => false
  | .ninf, _ => true
  | _, .ninf => false
  | _, .inf => true
  | .inf, _ => false
  | .fin a, .fin b => decide (a ≤ b)

/-- JS `a < b` on numbers (false whenever either side is NaN). -/
def jsLt : JSNum → JSNum → Bool
  | .nan, _ => false
  | _, .nan => false
  | .ninf, .ninf => false
  | .ninf, _ => true
  | _, .ninf => false
  | .inf, _ => false
  | .fin _, .inf => true
  | .fin a, .fin b => decide (a < b)

/-- JS `a + b` on numbers. -/
def jsAdd : JSNum → JSNum → JSNum
  | .nan, _ => .nan
  | _, .nan => .nan
  | .inf, .ninf => .nan
  | .ninf, .inf => .nan
  | .inf, _ => .inf
  | _, .inf => .inf
  | .ninf, _ => .ninf
  | _, .ninf => .ninf
  | .fin a, .fin b => .fin (a + b)

/-- Node's `setTimeout` delay handling: a delay outside `[1, 2^31 - 1]`
(including NaN and the infinities) is replaced by 1 millisecond. -/
def nodeDelay : JSNum → Int
  | .fin v => if 1 ≤ v ∧ v ≤ 2147483647 then v else 1
  | _ => 1

/-- The `timeoutCallback` argument of `put` as seen through the dynamic
`typeof` check: either an actual function (drawn from an abstract type `C`
of callback identities) or some non-callable value. -/
inductive CbArg (C : Type) where
  | func (c : C) : CbArg C
  | nonFunc : CbArg C
deriving DecidableEq

/-- A pending `setTimeout` handle created by `put`: a unique id, the
`key`/`value`/callback captured by the closure, and the (clamped) delay. -/
structure Timer (V C : Type) where
  id : Nat
  key : String
  value : V
  cb : Option C
  delay : Int
deriving DecidableEq

/-- `CacheRecord<T>`: stored value, absolute deadline (`expire`), and the
optional pending timer handle (`timeout`). -/
structure CacheRecord (V C : Type) where
  value : V
  expire : JSNum
  timeout : Option (Timer V C)
deriving DecidableEq

/-- The private state of a `Cache<T>` instance, plus the timer-id counter
used to model distinct `setTimeout` handles. -/
structure Cache (V C : Type) where
  entries : List (String × CacheRecord V C)
  hitCount : Nat
  missCount : Nat
  size : Int
  debug : Bool
  nextId : Nat
deriving DecidableEq

/-- A freshly constructed `new Cache()`. -/
def initCache {V C : Type} : Cache V C :=
  { entries := [], hitCount := 0, missCount := 0, size := 0,
    debug := false, nextId := 0 }

/-- Property read `this._cache[key]`. -/
def lookupEntry {V C : Type} :
    List (String × CacheRecord V C) → String → Option (CacheRecord V C)
  | [], _ => none
  | p :: rest, k => if p.1 = k then some p.2 else lookupEntry rest k

/-- Property write `this._cache[key] = record`: overwrite in place if the
key exists, otherwise append (JS property insertion order). -/
def setEntry {V C : Type} :
    List (String × CacheRecord V C) → String → CacheRecord V C →
    List (String × CacheRecord V C)
  | [], k, r => [(k, r)]
  | p :: rest, k, r => if p.1 = k then (k, r) :: rest else p :: setEntry rest k r

/-- Property removal `delete this._cache[key]`. -/
def removeEntry {V C : Type} (es : List (String × CacheRecord V C))
    (k : String) : List (String × CacheRecord V C) :=
  es.filter (fun p => p.1 ≠ k)

/-- Numeric value of a list of decimal digit characters. -/
def natOfDigits : List Char → Nat → Nat
  | [], acc => acc
  | c :: rest, acc => natOfDigits rest (acc * 10 + (c.toNat - 48))

/-- Is the string an ECMAScript array index, i.e. the canonical base-10
numeral (no leading zero except for `"0"` itself) of some `n` with
`0 ≤ n < 2^32 - 1`?  Such keys are enumerated first, in numeric order. -/
def jsIndexOf (s : String) : Option Nat :=
  match s.data with
  | [] => none
  | [c] => if c.isDigit then some (c.toNat - 48) else none
  | c :: rest =>
      if c.isDigit && !(c == '0') && rest.all Char.isDigit then
        let n := natOfDigits (c :: rest) 0
        if n < 4294967295 then some n else none
      else none

/-- Insert into a list of (index, key) pairs kept ascending by index. -/
def insertIdx (p : Nat × String) : List (Nat × String) → List (Nat × String)
  | [] => [p]
  | q :: rest => if p.1 ≤ q.1 then p :: q :: rest else q :: insertIdx p rest

/-- Sort (index, key) pairs ascending by index. -/
def sortIdx (l : List (Nat × String)) : List (Nat × String) :=
  l.foldr insertIdx []

/-- ECMAScript own-property key order used by `Object.keys` and `for..in`:
array-index keys ascending numerically, then the remaining string keys in
insertion order. -/
def jsOwnKeys {V C : Type} (es : List (String × CacheRecord V C)) : List String :=
  let ks := es.map Prod.fst
  (sortIdx (ks.filterMap (fun k => (jsIndexOf k).map (fun n => (n, k))))).map Prod.snd
    ++ ks.filter (fun k => (jsIndexOf k).isNone)

/-- The TTL validation of `put`: `time !== undefined && (isNaN(time) ||
time <= 0)`.  (The `typeof time !== 'number'` disjunct of the source is
always false here because `JSNum` only contains numbers, matching the
TypeScript signature `time?: number`.) -/
def badTtl : Option JSNum → Bool
  | none => false
  | some t => t.isNaNb || jsLe t (.fin 0)

/-- The callback validation of `put`: `timeoutCallback !== undefined &&
typeof timeoutCallback !== 'function'`. -/
def badCb {C : Type} : Option (CbArg C) → Bool
  | some .nonFunc => true
  | _ => false

/-- The function value passed as `timeoutCallback` (or `undefined`),
once it has passed the `typeof` check of `put`. -/
def cbFun {C : Type} : Option (CbArg C) → Option C
  | some (.func c) => some c
  | _ => none

/-- The record stored by a successful `put`: `expire = time + Date.now()`
when a TTL is given and `Infinity` otherwise, and a `setTimeout` handle
(capturing `key`, `value` and the callback) exactly when a TTL is
given. -/
def putRecord {V C : Type} (s : Cache V C) (key : String) (value : V)
    (time : Option JSNum) (cb : Option (CbArg C)) (now : Int) :
    CacheRecord V C :=
  { value := value,
    expire :=
      match time with
      | some t => jsAdd t (.fin now)
      | none => .inf,
    timeout :=
      match time with
      | some t => some { id := s.nextId, key := key, value := value,
                         cb := cbFun cb, delay := nodeDelay t }
      | none => none }

/-- The state mutation of a successful `put`: the old record's timer is
cancelled by replacing the record (`clearTimeout(oldRecord.timeout)`), the
size grows only for a fresh key, and the timer-id counter advances when a
new `setTimeout` handle is created. -/
def putState {V C : Type} (s : Cache V C) (key : String) (value : V)
    (time : Option JSNum) (cb : Option (CbArg C)) (now : Int) : Cache V C :=
  { s with
      entries := setEntry s.entries key (putRecord s key value time cb now),
      size := if (lookupEntry s.entries key).isSome then s.size else s.size + 1,
      nextId := if time.isSome then s.nextId + 1 else s.nextId }

/-- `put(key, value, time?, timeoutCallback?)`.  Throws on an invalid TTL
or callback before any mutation; otherwise mutates the state as
`putState` and returns the value.  The debug-mode `console.log` has no
state effect and is not modelled. -/
def put {V C : Type} (s : Cache V C) (key : String) (value : V)
    (time : Option JSNum) (cb : Option (CbArg C)) (now : Int) :
    Except String (Cache V C × V) :=
  if badTtl time then
    .error "Cache timeout must be a positive number"
  else if badCb cb then
    .error "Cache timeout callback must be a function"
  else
    .ok (putState s key value time cb now, value)

/-- `get(key)`: absent when no record exists or `record.expire <
Date.now()`; bumps the miss/hit counter only in debug mode; never mutates
the mapping or the size. -/
def get {V C : Type} (s : Cache V C) (key : String) (now : Int) :
    Option V × Cache V C :=
  match lookupEntry s.entries key with
  | none =>
      (none, { s with missCount := if s.debug then s.missCount + 1 else s.missCount })
  | some record =>
      if jsLt record.expire (.fin now) then
        (none, { s with missCount := if s.debug then s.missCount + 1 else s.missCount })
      else
        (some record.value, { s with hitCount := if s.debug then s.hitCount + 1 else s.hitCount })

/-- `del(key)`: false for an absent key; otherwise cancels the timer,
removes the record (`_del`), decrements size, returns true. -/
def del {V C : Type} (s : Cache V C) (key : String) : Cache V C × Bool :=
  match lookupEntry s.entries key with
  | none => (s, false)
  | some _ =>
      ({ s with entries := removeEntry s.entries key, size := s.size - 1 }, true)

/-- `clear()`: cancels every pending timer, discards all records, resets
size to 0, and resets the hit/miss counters only in debug mode. -/
def clear {V C : Type} (s : Cache V C) : Cache V C :=
  { s with
      entries := [],
      size := 0,
      hitCount := if s.debug then 0 else s.hitCount,
      missCount := if s.debug then 0 else s.missCount }

/-- `size()`. -/
def sizeFn {V C : Type} (s : Cache V C) : Int := s.size

/-- `keys()`: `Object.keys(this._cache)`. -/
def keysFn {V C : Type} (s : Cache V C) : List String :=
  jsOwnKeys s.entries

/-- The `expire` field of an exported/parsed plain record: a JSON number,
or any non-number value (in particular the `"NaN"` sentinel string emitted
by `exportJson`). -/
inductive ExpireField where
  | num (e : Int) : ExpireField
  | other : ExpireField
deriving DecidableEq

/-- One entry of the plain object handled by `exportJson`/`importJson`. -/
structure PlainRecord (V : Type) where
  value : V
  expire : ExpireField
deriving DecidableEq

/-- `exportJson()` after `JSON.parse` of its output: every stored record
as `{value, expire}` with `expire` the finite deadline or the `"NaN"`
sentinel, keyed and ordered by `for (const key in this._cache)`. -/
def exportJson {V C : Type} (s : Cache V C) : List (String × PlainRecord V) :=
  (jsOwnKeys s.entries).filterMap (fun k =>
    (lookupEntry s.entries k).map (fun r =>
      (k, { value := r.value,
            expire := match r.expire with
              | .fin e => ExpireField.num e
              | _ => ExpireField.other })))

/-- The `remainingTime` computation of `importJson`:
`typeof expire === 'number' ? expire - currTime : Infinity`. -/
def remainOf (e : ExpireField) (now : Int) : JSNum :=
  match e with
  | .num x => .fin (x - now)
  | .other => .inf

/-- Whether the parsed object owns a property named `"hasOwnProperty"`.
`JSON.parse` then creates an own data property that shadows
`Object.prototype.hasOwnProperty`, so the loop guard
`cacheToImport.hasOwnProperty(key)` calls a non-function and throws
`TypeError` on the first iteration of the import loop. -/
def shadowsHasOwn {V : Type} (j : List (String × PlainRecord V)) : Bool :=
  j.any (fun p => p.1 = "hasOwnProperty")

/-- The `for (const key in cacheToImport)` loop of `importJson`, over the
parsed object in its enumeration order.  Each iteration first evaluates
the guard `if (!cacheToImport.hasOwnProperty(key)) continue`: when the
parsed object owns a key named `"hasOwnProperty"` (the `shadowed` flag),
that property access yields a non-function and the call throws
`TypeError` — already on the first iteration, before any entry is
processed; otherwise the prototype method is called and returns true for
every enumerated key (`for..in` here enumerates own properties), so the
`continue` is never taken.  An exception from `put` would propagate; it
is proved below that this cannot happen. -/
def importLoop {V C : Type} :
    List (String × PlainRecord V) → Cache V C → Int → Bool → Bool →
    Except String (Cache V C)
  | [], s, _, _, _ => .ok s
  | (key, pr) :: rest, s, now, skipDup, shadowed =>
      if shadowed then
        .error "TypeError: cacheToImport.hasOwnProperty is not a function"
      else
        let remainingTime : JSNum := remainOf pr.expire now
        if jsLe remainingTime (.fin 0) ||
            (skipDup && (lookupEntry s.entries key).isSome) then
          importLoop rest s now skipDup shadowed
        else
          match put s key pr.value
              (if jsLt (.fin 0) remainingTime then some remainingTime else none)
              none now with
          | .error e => .error e
          | .ok (s2, _) => importLoop rest s2 now skipDup shadowed

/-- `importJson(json, options?)`: runs the import loop (with the
`hasOwnProperty`-shadowing flag of the parsed object) and returns
`this.size()`. -/
def importJson {V C : Type} (j : List (String × PlainRecord V))
    (skipDup : Bool) (now : Int) (s : Cache V C) :
    Except String (Cache V C × Int) :=
  match importLoop j s now skipDup (shadowsHasOwn j) with
  | .error e => .error e
  | .ok s2 => .ok (s2, sizeFn s2)

/-- A callback invocation performed by a firing timer:
`timeoutCallback(key, value)`, tagged with the timer's id. -/
structure Event (V C : Type) where
  id : Nat
  key : String
  value : V
  cb : C
deriving DecidableEq

/-- The operations of the cache plus the asynchronous firing of a pending
timer.  Each operation that reads the clock takes its `Date.now()` value
as an argument. -/
inductive Action (V C : Type) where
  | putA (k : String) (v : V) (t : Option JSNum) (cb : Option (CbArg C)) (now : Int)
  | delA (k : String)
  | clearA
  | getA (k : String) (now : Int)
  | debugA (b : Bool)
  | importA (j : List (String × PlainRecord V)) (skipDup : Bool) (now : Int)
  | fireA (k : String)

/-- One transition of the cache.  A thrown exception leaves the state as
the caller last saw it.  `fireA k` is enabled when the record at `k` still
owns a pending timer; it executes the closure scheduled by `put`
(`this._del(key)` on the captured key, then `timeoutCallback?.(key,
value)` with the captured arguments) and emits the callback invocation as
an event.  All other actions emit no events. -/
def step {V C : Type} (s : Cache V C) :
    Action V C → Cache V C × List (Event V C)
  | .putA k v t cb now =>
      match put s k v t cb now with
      | .ok (s2, _) => (s2, [])
      | .error _ => (s, [])
  | .delA k => ((del s k).1, [])
  | .clearA => (clear s, [])
  | .getA k now => ((get s k now).2, [])
  | .debugA b => ({ s with debug := b }, [])
  | .importA j skipDup now =>
      match importJson j skipDup now s with
      | .ok (s2, _) => (s2, [])
      | .error _ => (s, [])
  | .fireA k =>
      match lookupEntry s.entries k with
      | none => (s, [])
      | some r =>
          match r.timeout with
          | none => (s, [])
          | some tm =>
              ({ s with entries := removeEntry s.entries tm.key,
                        size := s.size - 1 },
               match tm.cb with
               | some c => [{ id := tm.id, key := tm.key, value := tm.value, cb := c }]
               | none => [])

/-- Run a sequence of actions, collecting all emitted callback events. -/
def run {V C : Type} (s : Cache V C) :
    List (Action V C) → Cache V C × List (Event V C)
  | [] => (s, [])
  | a :: rest =>
      let p := step s a
      let q := run p.1 rest
      (q.1, p.2 ++ q.2)

/-- A cache state reachable from a fresh cache by some action sequence. -/
def Reachable {V C : Type} (s : Cache V C) : Prop :=
  ∃ acts : List (Action V C), (run initCache acts).1 = s

/-! ### Association-list lemmas -/

variable {V C : Type}

theorem lookup_set_self (es : List (String × CacheRecord V C)) (k : String)
    (r : CacheRecord V C) : lookupEntry (setEntry es k r) k = some r := by
  induction es with
  | nil => simp [setEntry, lookupEntry]
  | cons p rest ih =>
      by_cases h : p.1 = k
      · simp [setEntry, h, lookupEntry]
      · simp [setEntry, h, lookupEntry, ih]

theorem lookup_set_ne (es : List (String × CacheRecord V C)) (k k' : String)
    (r : CacheRecord V C) (h : k ≠ k') :
    lookupEntry (setEntry es k r) k' = lookupEntry es k' := by
  induction es with
  | nil => simp [setEntry, lookupEntry, h]
  | cons p rest ih =>
      by_cases hp : p.1 = k
      · simp [setEntry, hp, lookupEntry, h]
      · simp [setEntry, hp, lookupEntry, ih]

theorem lookup_eq_none_iff (es : List (String × CacheRecord V C)) (k : String) :
    lookupEntry es k = none ↔ k ∉ es.map Prod.fst := by
  induction es with
  | nil => simp [lookupEntry]
  | cons p rest ih =>
      by_cases hp : p.1 = k
      · simp [lookupEntry, hp]
      · simp [lookupEntry, hp, ih, Ne.symm hp]

theorem lookup_isSome_iff (es : List (String × CacheRecord V C)) (k : String) :
    (lookupEntry es k).isSome = true ↔ k ∈ es.map Prod.fst := by
  rw [Option.isSome_iff_ne_none]
  exact not_iff_not.mpr (lookup_eq_none_iff es k) |>.trans not_not

theorem mem_of_lookup_eq_some {es : List (String × CacheRecord V C)}
    {k : String} {r : CacheRecord V C} (h : lookupEntry es k = some r) :
    (k, r) ∈ es := by
  induction es with
  | nil => simp [lookupEntry] at h
  | cons p rest ih =>
      obtain ⟨a, b⟩ := p
      by_cases hp : a = k
      · simp [lookupEntry, hp] at h
        subst hp
        subst h
        exact List.mem_cons_self _ _
      · simp [lookupEntry, hp] at h
        exact List.mem_cons_of_mem _ (ih h)

theorem mapfst_set_mem {es : List (String × CacheRecord V C)} {k : String}
    (r : CacheRecord V C) (h : k ∈ es.map Prod.fst) :
    (setEntry es k r).map Prod.fst = es.map Prod.fst := by
  induction es with
  | nil => simp at h
  | cons p rest ih =>
      by_cases hp : p.1 = k
      · simp [setEntry, hp]
      · rw [List.map_cons, List.mem_cons] at h
        rcases h with h | h
        · exact absurd h.symm hp
        · simp [setEntry, hp, ih h]

theorem mapfst_set_notmem {es : List (String × CacheRecord V C)} {k : String}
    (r : CacheRecord V C) (h : k ∉ es.map Prod.fst) :
    (setEntry es k r).map Prod.fst = es.map Prod.fst ++ [k] := by
  induction es with
  | nil => simp [setEntry]
  | cons p rest ih =>
      rw [List.map_cons, List.mem_cons] at h
      push_neg at h
      by_cases hp : p.1 = k
      · exact absurd hp.symm h.1
      · simp [setEntry, hp, ih h.2]

theorem mem_set {es : List (String × CacheRecord V C)} {k : String}
    {r : CacheRecord V C} {p : String × CacheRecord V C}
    (h : p ∈ setEntry es k r) : p = (k, r) ∨ p ∈ es := by
  induction es with
  | nil => simpa [setEntry] using h
  | cons q rest ih =>
      by_cases hq : q.1 = k
      · simp [setEntry, hq] at h
        rcases h with h | h
        · exact Or.inl h
        · exact Or.inr (List.mem_cons_of_mem _ h)
      · simp [setEntry, hq] at h
        rcases h with h | h
        · exact Or.inr (by simp [h])
        · rcases ih h with h2 | h2
          · exact Or.inl h2
          · exact Or.inr (List.mem_cons_of_mem _ h2)

theorem remove_sublist (es : List (String × CacheRecord V C)) (k : String) :
    (removeEntry es k).Sublist es :=
  List.filter_sublist es

theorem mem_of_mem_remove {es : List (String × CacheRecord V C)} {k : String}
    {p : String × CacheRecord V C} (h : p ∈ removeEntry es k) : p ∈ es :=
  (remove_sublist es k).subset h

theorem lookup_remove_self (es : List (String × CacheRecord V C)) (k : String) :
    lookupEntry (removeEntry es k) k = none := by
  induction es with
  | nil => simp [removeEntry, lookupEntry]
  | cons p rest ih =>
      by_cases hp : p.1 = k
      · simpa [removeEntry, hp] using ih
      · simpa [removeEntry, lookupEntry, hp] using ih

theorem lookup_remove_ne (es : List (String × CacheRecord V C))
    (k k' : String) (h : k' ≠ k) :
    lookupEntry (removeEntry es k) k' = lookupEntry es k' := by
  induction es with
  | nil => simp [removeEntry, lookupEntry]
  | cons p rest ih =>
      by_cases hp : p.1 = k
      · have hp2 : ¬ p.1 = k' := by rw [hp]; exact fun hh => h hh.symm
        rw [show lookupEntry (p :: rest) k' = lookupEntry rest k' by
          simp [lookupEntry, hp2]]
        rw [show removeEntry (p :: rest) k = removeEntry rest k by
          simp [removeEntry, List.filter_cons, hp]]
        exact ih
      · rw [show removeEntry (p :: rest) k = p :: removeEntry rest k by
          simp [removeEntry, List.filter_cons, hp]]
        by_cases hq : p.1 = k'
        · simp [lookupEntry, hq]
        · simp [lookupEntry, hq]
          exact ih

theorem remove_eq_self_of_notmem {es : List (String × CacheRecord V C)}
    {k : String} (h : k ∉ es.map Prod.fst) : removeEntry es k = es := by
  induction es with
  | nil => rfl
  | cons p rest ih =>
      rw [List.map_cons, List.mem_cons] at h
      push_neg at h
      have hp : ¬ p.1 = k := fun hh => h.1 hh.symm
      have ih2 := ih h.2
      rw [show removeEntry (p :: rest) k = p :: removeEntry rest k by
        simp [removeEntry, List.filter_cons, hp]]
      rw [ih2]

theorem length_remove_add_one {es : List (String × CacheRecord V C)}
    {k : String} {r : CacheRecord V C} (hnd : (es.map Prod.fst).Nodup)
    (h : lookupEntry es k = some r) :
    (removeEntry es k).length + 1 = es.length := by
  induction es with
  | nil => simp [lookupEntry] at h
  | cons p rest ih =>
      rw [List.map_cons, List.nodup_cons] at hnd
      by_cases hp : p.1 = k
      · have hnm : k ∉ rest.map Prod.fst := by rw [← hp]; exact hnd.1
        rw [show removeEntry (p :: rest) k = removeEntry rest k by
          simp [removeEntry, List.filter_cons, hp]]
        rw [remove_eq_self_of_notmem hnm]
        simp
      · simp [lookupEntry, hp] at h
        rw [show removeEntry (p :: rest) k = p :: removeEntry rest k by
          simp [removeEntry, List.filter_cons, hp]]
        have := ih hnd.2 h
        simp only [List.length_cons]
        omega

/-! ### Lemmas about armed timers -/

/-- The timer ids held by one record. -/
def tIds (r : CacheRecord V C) : List Nat :=
  match r.timeout with
  | some tm => [tm.id]
  | none => []

/-- All timer ids currently armed in the mapping. -/
def armedIds : List (String × CacheRecord V C) → List Nat
  | [] => []
  | p :: rest => tIds p.2 ++ armedIds rest

theorem armed_mem_elim {es : List (String × CacheRecord V C)} {i : Nat}
    (h : i ∈ armedIds es) :
    ∃ p ∈ es, ∃ tm, p.2.timeout = some tm ∧ tm.id = i := by
  induction es with
  | nil => simp [armedIds] at h
  | cons p rest ih =>
      simp [armedIds] at h
      rcases h with h | h
      · refine ⟨p, by simp, ?_⟩
        unfold tIds at h
        cases htm : p.2.timeout with
        | none => simp [htm] at h
        | some tm => exact ⟨tm, rfl, by simp [htm] at h; omega⟩
      · obtain ⟨q, hq, tm, htm, hid⟩ := ih h
        exact ⟨q, List.mem_cons_of_mem _ hq, tm, htm, hid⟩

theorem armed_mem_of_lookup {es : List (String × CacheRecord V C)}
    {k : String} {r : CacheRecord V C} {tm : Timer V C}
    (h : lookupEntry es k = some r) (htm : r.timeout = some tm) :
    tm.id ∈ armedIds es := by
  induction es with
  | nil => simp [lookupEntry] at h
  | cons p rest ih =>
      by_cases hp : p.1 = k
      · simp [lookupEntry, hp] at h
        simp [armedIds, tIds, h, htm]
      · simp [lookupEntry, hp] at h
        simp [armedIds]
        exact Or.inr (ih h)

theorem armed_set_sub {es : List (String × CacheRecord V C)} {k : String}
    {r : CacheRecord V C} {i : Nat} (h : i ∈ armedIds (setEntry es k r)) :
    i ∈ tIds r ∨ i ∈ armedIds es := by
  induction es with
  | nil => simpa [setEntry, armedIds] using h
  | cons p rest ih =>
      by_cases hp : p.1 = k
      · simp [setEntry, hp, armedIds] at h
        rcases h with h | h
        · exact Or.inl h
        · exact Or.inr (by simp [armedIds]; exact Or.inr h)
      · simp [setEntry, hp, armedIds] at h
        rcases h with h | h
        · exact Or.inr (by simp [armedIds]; exact Or.inl h)
        · rcases ih h with h2 | h2
          · exact Or.inl h2
          · exact Or.inr (by simp [armedIds]; exact Or.inr h2)

theorem tIds_nodup (r : CacheRecord V C) : (tIds r).Nodup := by
  unfold tIds
  cases r.timeout <;> simp

theorem armed_set_nodup {es : List (String × CacheRecord V C)} {k : String}
    {r : CacheRecord V C} (hnd : (armedIds es).Nodup)
    (hfresh : ∀ i ∈ tIds r, i ∉ armedIds es) :
    (armedIds (setEntry es k r)).Nodup := by
  induction es with
  | nil => simpa [setEntry, armedIds] using tIds_nodup r
  | cons p rest ih =>
      rw [show armedIds (p :: rest) = tIds p.2 ++ armedIds rest from rfl,
        List.nodup_append] at hnd
      obtain ⟨h1, h2, h3⟩ := hnd
      have hfr : ∀ i ∈ tIds r, i ∉ armedIds rest := by
        intro i hi hm
        exact hfresh i hi (by
          rw [show armedIds (p :: rest) = tIds p.2 ++ armedIds rest from rfl]
          exact List.mem_append_right _ hm)
      have hfp : ∀ i ∈ tIds r, i ∉ tIds p.2 := by
        intro i hi hm
        exact hfresh i hi (by
          rw [show armedIds (p :: rest) = tIds p.2 ++ armedIds rest from rfl]
          exact List.mem_append_left _ hm)
      by_cases hp : p.1 = k
      · rw [show setEntry (p :: rest) k r = (k, r) :: rest by
          simp [setEntry, hp]]
        rw [show armedIds ((k, r) :: rest) = tIds r ++ armedIds rest from rfl,
          List.nodup_append]
        exact ⟨tIds_nodup r, h2, by intro i hi hm; exact hfr i hi hm⟩
      · rw [show setEntry (p :: rest) k r = p :: setEntry rest k r by
          simp [setEntry, hp]]
        rw [show armedIds (p :: setEntry rest k r)
            = tIds p.2 ++ armedIds (setEntry rest k r) from rfl,
          List.nodup_append]
        refine ⟨h1, ih h2 hfr, ?_⟩
        intro i hi hm
        rcases armed_set_sub hm with hh | hh
        · exact hfp i hh hi
        · exact h3 hi hh

theorem armed_remove_sublist (es : List (String × CacheRecord V C))
    (k : String) : (armedIds (removeEntry es k)).Sublist (armedIds es) := by
  induction es with
  | nil => simp [removeEntry, armedIds]
  | cons p rest ih =>
      by_cases hp : p.1 = k
      · rw [show removeEntry (p :: rest) k = removeEntry rest k by
          simp [removeEntry, List.filter_cons, hp]]
        rw [show armedIds (p :: rest) = tIds p.2 ++ armedIds rest from rfl]
        exact List.Sublist.trans ih (List.sublist_append_right (tIds p.2) _)
      · rw [show removeEntry (p :: rest) k = p :: removeEntry rest k by
          simp [removeEntry, List.filter_cons, hp]]
        rw [show armedIds (p :: removeEntry rest k)
            = tIds p.2 ++ armedIds (removeEntry rest k) from rfl]
        rw [show armedIds (p :: rest) = tIds p.2 ++ armedIds rest from rfl]
        exact List.Sublist.append (List.Sublist.refl _) ih

theorem armed_remove_not_mem {es : List (String × CacheRecord V C)}
    {k : String} {r : CacheRecord V C} {tm : Timer V C}
    (hnd : (armedIds es).Nodup) (h : lookupEntry es k = some r)
    (htm : r.timeout = some tm) :
    tm.id ∉ armedIds (removeEntry es k) := by
  induction es with
  | nil => simp [lookupEntry] at h
  | cons p rest ih =>
      rw [show armedIds (p :: rest) = tIds p.2 ++ armedIds rest from rfl,
        List.nodup_append] at hnd
      obtain ⟨h1, h2, h3⟩ := hnd
      by_cases hp : p.1 = k
      · simp [lookupEntry, hp] at h
        rw [show removeEntry (p :: rest) k = removeEntry rest k by
          simp [removeEntry, List.filter_cons, hp]]
        intro hm
        have hm2 : tm.id ∈ armedIds rest := (armed_remove_sublist rest k).subset hm
        exact h3 (by simp [tIds, h, htm]) hm2
      · simp [lookupEntry, hp] at h
        rw [show removeEntry (p :: rest) k = p :: removeEntry rest k by
          simp [removeEntry, List.filter_cons, hp]]
        rw [show armedIds (p :: removeEntry rest k)
            = tIds p.2 ++ armedIds (removeEntry rest k) from rfl]
        intro hm
        rcases List.mem_append.mp hm with hm | hm
        · exact h3 hm (armed_mem_of_lookup h htm)
        · exact ih h2 h hm

/-! ### The state invariant and its preservation -/

/-- Well-formedness of a cache state:
* JS object keys are unique;
* `_size` equals the number of stored records;
* every stored timer handle belongs to its record (the closure captured
  this record's key and value) and has an id below the allocation counter;
* a record without a timer has an infinite deadline;
* armed timer ids are pairwise distinct. -/
structure WF (s : Cache V C) : Prop where
  keysNodup : (s.entries.map Prod.fst).Nodup
  sizeEq : s.size = (s.entries.length : Int)
  timerOwn : ∀ p ∈ s.entries, ∀ tm : Timer V C, p.2.timeout = some tm →
      tm.key = p.1 ∧ tm.value = p.2.value ∧ tm.id < s.nextId
  noTimerInf : ∀ p ∈ s.entries, p.2.timeout = none → p.2.expire = JSNum.inf
  armedNodup : (armedIds s.entries).Nodup

/-- How one transition relates the old state to the new one, as far as
timer-id bookkeeping is concerned: the allocation counter never goes
backwards and every newly armed id is at least the old counter value. -/
def Advances (s s2 : Cache V C) : Prop :=
  s.nextId ≤ s2.nextId ∧
    ∀ i ∈ armedIds s2.entries, i ∈ armedIds s.entries ∨ s.nextId ≤ i

theorem advances_refl (s : Cache V C) : Advances s s :=
  ⟨le_refl _, fun _ hi => Or.inl hi⟩

theorem advances_trans {s1 s2 s3 : Cache V C} (h1 : Advances s1 s2)
    (h2 : Advances s2 s3) : Advances s1 s3 := by
  refine ⟨le_trans h1.1 h2.1, ?_⟩
  intro i hi
  rcases h2.2 i hi with h | h
  · exact h1.2 i h
  · exact Or.inr (le_trans h1.1 h)

theorem armed_bound {s : Cache V C} (h : WF s) :
    ∀ i ∈ armedIds s.entries, i < s.nextId := by
  intro i hi
  obtain ⟨p, hp, tm, htm, hid⟩ := armed_mem_elim hi
  have := (h.timerOwn p hp tm htm).2.2
  omega

theorem initCache_wf : WF (initCache (V := V) (C := C)) := by
  constructor <;> simp [initCache, armedIds]

theorem putState_wf {s : Cache V C} (h : WF s) (k : String) (v : V)
    (t : Option JSNum) (cb : Option (CbArg C)) (now : Int) :
    WF (putState s k v t cb now) ∧ Advances s (putState s k v t cb now) := by
  have hfresh : ∀ i ∈ tIds (putRecord s k v t cb now), i ∉ armedIds s.entries := by
    intro i hi hm
    have hlt := armed_bound h i hm
    unfold putRecord tIds at hi
    cases t with
    | none => simp at hi
    | some tt => simp at hi; omega
  constructor
  · constructor
    · by_cases hk : k ∈ s.entries.map Prod.fst
      · rw [show (putState s k v t cb now).entries
            = setEntry s.entries k (putRecord s k v t cb now) from rfl]
        rw [mapfst_set_mem _ hk]
        exact h.keysNodup
      · rw [show (putState s k v t cb now).entries
            = setEntry s.entries k (putRecord s k v t cb now) from rfl]
        rw [mapfst_set_notmem _ hk]
        rw [List.nodup_append]
        refine ⟨h.keysNodup, by simp, ?_⟩
        rw [List.disjoint_right]
        intro a ha
        rw [List.mem_singleton] at ha
        subst ha
        exact hk
    · by_cases hk : k ∈ s.entries.map Prod.fst
      · have hsome : (lookupEntry s.entries k).isSome = true :=
          (lookup_isSome_iff _ _).mpr hk
        rw [show (putState s k v t cb now).size
            = if (lookupEntry s.entries k).isSome then s.size else s.size + 1 from rfl]
        rw [show (putState s k v t cb now).entries
            = setEntry s.entries k (putRecord s k v t cb now) from rfl]
        rw [if_pos hsome, h.sizeEq]
        congr 1
        rw [← List.length_map (setEntry s.entries k (putRecord s k v t cb now)) Prod.fst,
          mapfst_set_mem _ hk, List.length_map]
      · have hnone : ¬ (lookupEntry s.entries k).isSome = true := by
          rw [lookup_isSome_iff]; exact hk
        rw [show (putState s k v t cb now).size
            = if (lookupEntry s.entries k).isSome then s.size else s.size + 1 from rfl]
        rw [show (putState s k v t cb now).entries
            = setEntry s.entries k (putRecord s k v t cb now) from rfl]
        rw [if_neg hnone, h.sizeEq]
        rw [← List.length_map (setEntry s.entries k (putRecord s k v t cb now)) Prod.fst,
          mapfst_set_notmem _ hk, List.length_append, List.length_map]
        simp
    · intro p hp tm htm
      have hnext : s.nextId ≤ (putState s k v t cb now).nextId := by
        rw [show (putState s k v t cb now).nextId
            = if t.isSome then s.nextId + 1 else s.nextId from rfl]
        cases t <;> simp
      rcases mem_set hp with he | he
      · subst he
        cases t with
        | none => unfold putRecord at htm; simp at htm
        | some tt =>
            unfold putRecord at htm
            simp at htm
            rw [← htm]
            refine ⟨rfl, rfl, ?_⟩
            exact Nat.lt_succ_self _
      · obtain ⟨h1, h2, h3⟩ := h.timerOwn p he tm htm
        exact ⟨h1, h2, lt_of_lt_of_le h3 hnext⟩
    · intro p hp htm
      rcases mem_set hp with he | he
      · subst he
        unfold putRecord at htm ⊢
        cases t with
        | none => rfl
        | some tt => simp at htm
      · exact h.noTimerInf p he htm
    · exact armed_set_nodup h.armedNodup hfresh
  · constructor
    · rw [show (putState s k v t cb now).nextId
          = if t.isSome then s.nextId + 1 else s.nextId from rfl]
      cases t <;> simp
    · intro i hi
      rcases armed_set_sub hi with hh | hh
      · unfold putRecord tIds at hh
        cases t with
        | none => simp at hh
        | some tt => simp at hh; omega
      · exact Or.inl hh

theorem put_ok_of_valid {s : Cache V C} {k : String} {v : V}
    {t : Option JSNum} {cb : Option (CbArg C)} {now : Int}
    (h1 : badTtl t = false) (h2 : badCb cb = false) :
    put s k v t cb now = .ok (putState s k v t cb now, v) := by
  simp [put, h1, h2]

theorem put_wf {s s2 : Cache V C} {k : String} {v v2 : V}
    {t : Option JSNum} {cb : Option (CbArg C)} {now : Int} (h : WF s)
    (hok : put s k v t cb now = .ok (s2, v2)) :
    WF s2 ∧ Advances s s2 := by
  unfold put at hok
  by_cases h1 : badTtl t
  · simp [h1] at hok
  by_cases h2 : badCb cb
  · simp [h1, h2] at hok
  simp [h1, h2] at hok
  rw [← hok.1]
  exact putState_wf h k v t cb now

theorem del_wf {s : Cache V C} (h : WF s) (k : String) :
    WF (del s k).1 ∧ Advances s (del s k).1 := by
  cases hl : lookupEntry s.entries k with
  | none =>
      have hd : del s k = (s, false) := by unfold del; rw [hl]
      rw [hd]
      exact ⟨h, advances_refl s⟩
  | some r =>
      have hd : del s k = (({ s with entries := removeEntry s.entries k, size := s.size - 1 } : Cache V C), true) := by
        unfold del; rw [hl]
      rw [hd]
      refine ⟨⟨?_, ?_, ?_, ?_, ?_⟩, le_refl _, ?_⟩
      · exact ((remove_sublist s.entries k).map Prod.fst).nodup h.keysNodup
      · have := length_remove_add_one h.keysNodup hl
        show s.size - 1 = ((removeEntry s.entries k).length : Int)
        rw [h.sizeEq]
        omega
      · intro p hp tm htm
        exact h.timerOwn p (mem_of_mem_remove hp) tm htm
      · intro p hp htm
        exact h.noTimerInf p (mem_of_mem_remove hp) htm
      · exact (armed_remove_sublist s.entries k).nodup h.armedNodup
      · intro i hi
        exact Or.inl ((armed_remove_sublist s.entries k).subset hi)

theorem clear_wf (s : Cache V C) :
    WF (clear s) ∧ Advances s (clear s) := by
  refine ⟨⟨?_, ?_, ?_, ?_, ?_⟩, le_refl _, ?_⟩ <;>
    simp [clear, armedIds]

theorem get_state_eq (s : Cache V C) (k : String) (now : Int) :
    (get s k now).2.entries = s.entries ∧ (get s k now).2.size = s.size ∧
      (get s k now).2.nextId = s.nextId ∧ (get s k now).2.debug = s.debug := by
  unfold get
  cases lookupEntry s.entries k with
  | none => exact ⟨rfl, rfl, rfl, rfl⟩
  | some r => by_cases hx : jsLt r.expire (.fin now) <;> simp [hx]

theorem get_wf {s : Cache V C} (h : WF s) (k : String) (now : Int) :
    WF (get s k now).2 ∧ Advances s (get s k now).2 := by
  obtain ⟨he, hs2, hn, -⟩ := get_state_eq s k now
  refine ⟨⟨?_, ?_, ?_, ?_, ?_⟩, ?_, ?_⟩ <;> simp only [he, hs2, hn]
  · exact h.keysNodup
  · exact h.sizeEq
  · exact h.timerOwn
  · exact h.noTimerInf
  · exact h.armedNodup
  · exact le_refl _
  · intro i hi
    exact Or.inl hi

theorem importLoop_wf :
    ∀ (j : List (String × PlainRecord V)) (s s2 : Cache V C) (now : Int)
      (skipDup shadowed : Bool), WF s →
      importLoop j s now skipDup shadowed = .ok s2 →
      WF s2 ∧ Advances s s2 := by
  intro j
  induction j with
  | nil =>
      intro s s2 now skipDup shadowed h hok
      unfold importLoop at hok
      simp at hok
      rw [← hok]
      exact ⟨h, advances_refl s⟩
  | cons p rest ih =>
      intro s s2 now skipDup shadowed h hok
      obtain ⟨key, pr⟩ := p
      simp only [importLoop] at hok
      split at hok
      · simp at hok
      · split at hok
        · exact ih s s2 now skipDup shadowed h hok
        · split at hok
          · simp at hok
          · rename_i s3 v3 heq
            obtain ⟨hw3, ha3⟩ := put_wf h heq
            obtain ⟨hw2, ha2⟩ := ih _ s2 now skipDup shadowed hw3 hok
            exact ⟨hw2, advances_trans ha3 ha2⟩

theorem importJson_wf {j : List (String × PlainRecord V)} {skipDup : Bool}
    {now : Int} {s s2 : Cache V C} {n : Int} (h : WF s)
    (hok : importJson j skipDup now s = .ok (s2, n)) :
    WF s2 ∧ Advances s s2 := by
  unfold importJson at hok
  split at hok
  · simp at hok
  · rename_i s3 heq
    simp at hok
    rw [← hok.1]
    exact importLoop_wf j s s3 now skipDup (shadowsHasOwn j) h heq

/-! ### Events carry fresh, never-repeating timer ids -/

/-- The callback events emitted so far use pairwise distinct timer ids,
all below the allocation counter and none still armed (a fired timer's
handle is gone). -/
def EvOK (s : Cache V C) (evs : List (Event V C)) : Prop :=
  (evs.map Event.id).Nodup ∧
    ∀ i ∈ evs.map Event.id, i < s.nextId ∧ i ∉ armedIds s.entries

theorem evok_of_advances {s s2 : Cache V C} {evs : List (Event V C)}
    (he : EvOK s evs) (ha : Advances s s2) : EvOK s2 evs := by
  refine ⟨he.1, ?_⟩
  intro i hi
  obtain ⟨hlt, hnm⟩ := he.2 i hi
  refine ⟨lt_of_lt_of_le hlt ha.1, ?_⟩
  intro hm
  rcases ha.2 i hm with hh | hh
  · exact hnm hh
  · omega

theorem fire_preserves {s : Cache V C} {evs : List (Event V C)} (h : WF s)
    (he : EvOK s evs) (k : String) :
    WF (step s (.fireA k)).1 ∧
      EvOK (step s (.fireA k)).1 (evs ++ (step s (.fireA k)).2) := by
  cases hl : lookupEntry s.entries k with
  | none =>
      have hs : step s (.fireA k) = (s, []) := by simp only [step, hl]
      rw [hs]
      exact ⟨h, by simpa using he⟩
  | some r =>
      cases htm : r.timeout with
      | none =>
          have hs : step s (.fireA k) = (s, []) := by
            simp only [step, hl, htm]
          rw [hs]
          exact ⟨h, by simpa using he⟩
      | some tm =>
          have hkey : tm.key = k := (h.timerOwn (k, r) (mem_of_lookup_eq_some hl) tm htm).1
          have hid : tm.id < s.nextId := (h.timerOwn (k, r) (mem_of_lookup_eq_some hl) tm htm).2.2
          have hs : step s (.fireA k)
              = (({ s with entries := removeEntry s.entries k, size := s.size - 1 } : Cache V C),
                 match tm.cb with
                 | some c => [{ id := tm.id, key := tm.key, value := tm.value, cb := c }]
                 | none => []) := by
            simp only [step, hl, htm, hkey]
          rw [hs]
          have harm : tm.id ∈ armedIds s.entries := armed_mem_of_lookup hl htm
          have hwf2 : WF ({ s with entries := removeEntry s.entries k, size := s.size - 1 } : Cache V C) := by
            refine ⟨?_, ?_, ?_, ?_, ?_⟩
            · exact ((remove_sublist s.entries k).map Prod.fst).nodup h.keysNodup
            · have := length_remove_add_one h.keysNodup hl
              show s.size - 1 = ((removeEntry s.entries k).length : Int)
              rw [h.sizeEq]
              omega
            · intro p hp tmx htmx
              exact h.timerOwn p (mem_of_mem_remove hp) tmx htmx
            · intro p hp htmx
              exact h.noTimerInf p (mem_of_mem_remove hp) htmx
            · exact (armed_remove_sublist s.entries k).nodup h.armedNodup
          have hold : ∀ i ∈ evs.map Event.id, i < s.nextId ∧ i ∉ armedIds (removeEntry s.entries k) := by
            intro i hi
            obtain ⟨h1, h2⟩ := he.2 i hi
            exact ⟨h1, fun hm => h2 ((armed_remove_sublist s.entries k).subset hm)⟩
          refine ⟨hwf2, ?_⟩
          cases hcb : tm.cb with
          | none =>
              refine ⟨by simpa using he.1, ?_⟩
              simp only [List.append_nil]
              exact hold
          | some c =>
              constructor
              · rw [List.map_append, List.nodup_append]
                refine ⟨he.1, by simp, ?_⟩
                rw [List.disjoint_right]
                intro a ha
                simp at ha
                subst ha
                intro hmem
                exact (he.2 tm.id hmem).2 harm
              · intro i hi
                rw [List.map_append, List.mem_append] at hi
                rcases hi with hi | hi
                · exact hold i hi
                · simp at hi
                  subst hi
                  exact ⟨hid, armed_remove_not_mem h.armedNodup hl htm⟩

theorem step_preserves {s : Cache V C} {evs : List (Event V C)} (h : WF s)
    (he : EvOK s evs) (a : Action V C) :
    WF (step s a).1 ∧ EvOK (step s a).1 (evs ++ (step s a).2) := by
  cases a with
  | putA k v t cb now =>
      cases hput : put s k v t cb now with
      | error e =>
          have hs : step s (.putA k v t cb now) = (s, []) := by
            simp only [step]; rw [hput]
          rw [hs]
          exact ⟨h, by simpa using he⟩
      | ok p =>
          obtain ⟨s3, v3⟩ := p
          have hs : step s (.putA k v t cb now) = (s3, []) := by
            simp only [step]; rw [hput]
          rw [hs]
          obtain ⟨hw, ha⟩ := put_wf h hput
          exact ⟨hw, by simpa using evok_of_advances he ha⟩
  | delA k =>
      obtain ⟨hw, ha⟩ := del_wf h k
      exact ⟨hw, by simpa [step] using evok_of_advances he ha⟩
  | clearA =>
      obtain ⟨hw, ha⟩ := clear_wf s
      exact ⟨hw, by simpa [step] using evok_of_advances he ha⟩
  | getA k now =>
      obtain ⟨hw, ha⟩ := get_wf h k now
      exact ⟨hw, by simpa [step] using evok_of_advances he ha⟩
  | debugA b =>
      refine ⟨⟨h.keysNodup, h.sizeEq, h.timerOwn, h.noTimerInf, h.armedNodup⟩, ?_⟩
      simpa [step] using evok_of_advances he ⟨le_refl _, fun _ hi => Or.inl hi⟩
  | importA j skipDup now =>
      cases himp : importJson j skipDup now s with
      | error e =>
          have hs : step s (.importA j skipDup now) = (s, []) := by
            simp only [step]; rw [himp]
          rw [hs]
          exact ⟨h, by simpa using he⟩
      | ok p =>
          obtain ⟨s3, n⟩ := p
          have hs : step s (.importA j skipDup now) = (s3, []) := by
            simp only [step]; rw [himp]
          rw [hs]
          obtain ⟨hw, ha⟩ := importJson_wf h himp
          exact ⟨hw, by simpa using evok_of_advances he ha⟩
  | fireA k => exact fire_preserves h he k

theorem run_preserves :
    ∀ (acts : List (Action V C)) (s : Cache V C) (evs : List (Event V C)),
      WF s → EvOK s evs →
      WF (run s acts).1 ∧ EvOK (run s acts).1 (evs ++ (run s acts).2) := by
  intro acts
  induction acts with
  | nil =>
      intro s evs h he
      exact ⟨h, by simpa [run] using he⟩
  | cons a rest ih =>
      intro s evs h he
      obtain ⟨h2, he2⟩ := step_preserves h he a
      obtain ⟨h3, he3⟩ := ih (step s a).1 (evs ++ (step s a).2) h2 he2
      refine ⟨h3, ?_⟩
      rw [show (run s (a :: rest)).2 = (step s a).2 ++ (run (step s a).1 rest).2 from rfl]
      rw [show (run s (a :: rest)).1 = (run (step s a).1 rest).1 from rfl]
      rw [← List.append_assoc]
      exact he3

theorem initCache_evok : EvOK (initCache (V := V) (C := C)) [] := by
  constructor <;> simp

theorem reachable_wf {s : Cache V C} (h : Reachable s) : WF s := by
  obtain ⟨acts, hrun⟩ := h
  rw [← hrun]
  exact (run_preserves acts initCache [] initCache_wf initCache_evok).1

theorem run_ids_nodup (acts : List (Action V C)) :
    (((run (initCache (V := V) (C := C)) acts).2).map Event.id).Nodup := by
  have := (run_preserves acts initCache [] initCache_wf initCache_evok).2
  simpa using this.1

/-! ### Key-order lemmas -/

theorem jsOwnKeys_congr {es1 es2 : List (String × CacheRecord V C)}
    (h : es1.map Prod.fst = es2.map Prod.fst) : jsOwnKeys es1 = jsOwnKeys es2 := by
  unfold jsOwnKeys
  rw [h]

theorem jsOwnKeys_of_no_index {es : List (String × CacheRecord V C)}
    (h : ∀ k ∈ es.map Prod.fst, jsIndexOf k = none) :
    jsOwnKeys es = es.map Prod.fst := by
  simp only [jsOwnKeys]
  have h1 : (es.map Prod.fst).filterMap
      (fun k => (jsIndexOf k).map (fun n => (n, k))) = [] := by
    rw [List.filterMap_eq_nil_iff]
    intro k hk
    rw [h k hk]
    rfl
  have h2 : (es.map Prod.fst).filter (fun k => (jsIndexOf k).isNone) = es.map Prod.fst := by
    rw [List.filter_eq_self]
    intro k hk
    rw [h k hk]
    rfl
  rw [h1, h2, sortIdx]
  rfl

theorem jsOwnKeys_pair (a b : String) (ra rb : CacheRecord V C) :
    jsOwnKeys [(a, ra), (b, rb)] = [a, b] ∨ jsOwnKeys [(a, ra), (b, rb)] = [b, a] := by
  unfold jsOwnKeys
  cases ha : jsIndexOf a with
  | none =>
      cases hb : jsIndexOf b with
      | none => left; simp [ha, hb, sortIdx]
      | some nb => right; simp [ha, hb, sortIdx, insertIdx]
  | some na =>
      cases hb : jsIndexOf b with
      | none => left; simp [ha, hb, sortIdx, insertIdx]
      | some nb =>
          by_cases hle : na ≤ nb
          · left; simp [ha, hb, sortIdx, insertIdx, hle]
          · right; simp [ha, hb, sortIdx, insertIdx, hle]

/-! ### Import computation lemmas -/

theorem remain_isNaNb (e : ExpireField) (now : Int) :
    (remainOf e now).isNaNb = false := by
  cases e <;> rfl

theorem remain_pos {e : ExpireField} {now : Int}
    (h : jsLe (remainOf e now) (.fin 0) = false) :
    jsLt (.fin 0) (remainOf e now) = true := by
  cases e with
  | num x =>
      simp [remainOf, jsLe, jsLt] at h ⊢
      omega
  | other => rfl

theorem remain_badTtl {e : ExpireField} {now : Int}
    (h : jsLe (remainOf e now) (.fin 0) = false) :
    badTtl (some (remainOf e now)) = false := by
  simp [badTtl, remain_isNaNb, h]

theorem remain_not_expired {e : ExpireField} {now : Int}
    (h : jsLe (remainOf e now) (.fin 0) = false) :
    jsLt (jsAdd (remainOf e now) (.fin now)) (.fin now) = false := by
  cases e with
  | num x =>
      simp [remainOf, jsAdd, jsLe, jsLt] at h ⊢
      omega
  | other => rfl

/-- The cache produced by importing two fresh, non-expired entries into a
fresh cache. -/
def importPairState (x1 x2 : String) (w1 w2 : V) (e1 e2 : ExpireField)
    (now : Int) : Cache V C :=
  { entries :=
      [(x1, { value := w1, expire := jsAdd (remainOf e1 now) (.fin now),
              timeout := some { id := 0, key := x1, value := w1, cb := none,
                                delay := nodeDelay (remainOf e1 now) } }),
       (x2, { value := w2, expire := jsAdd (remainOf e2 now) (.fin now),
              timeout := some { id := 1, key := x2, value := w2, cb := none,
                                delay := nodeDelay (remainOf e2 now) } })],
    hitCount := 0, missCount := 0, size := 2, debug := false, nextId := 2 }

theorem import_pair (x1 x2 : String) (w1 w2 : V) (e1 e2 : ExpireField)
    (now : Int) (hx : x1 ≠ x2)
    (hn1 : x1 ≠ "hasOwnProperty") (hn2 : x2 ≠ "hasOwnProperty")
    (h1 : jsLe (remainOf e1 now) (.fin 0) = false)
    (h2 : jsLe (remainOf e2 now) (.fin 0) = false) :
    importJson [(x1, ⟨w1, e1⟩), (x2, ⟨w2, e2⟩)] false now
        (initCache (V := V) (C := C))
      = .ok (importPairState x1 x2 w1 w2 e1 e2 now, 2) ∧
    (get (importPairState x1 x2 w1 w2 e1 e2 now (C := C)) x1 now).1 = some w1 ∧
    (get (importPairState x1 x2 w1 w2 e1 e2 now (C := C)) x2 now).1 = some w2 ∧
    (importPairState x1 x2 w1 w2 e1 e2 now (C := C)).size = 2 := by
  have hp1 := remain_pos h1
  have hp2 := remain_pos h2
  have hb1 := remain_badTtl h1
  have hb2 := remain_badTtl h2
  refine ⟨?_, ?_, ?_, rfl⟩
  · simp [importJson, importLoop, shadowsHasOwn, hn1, hn2, h1, h2, hp1, hp2,
      put, hb1, hb2, badCb, putState, putRecord, lookupEntry, setEntry,
      initCache, hx, cbFun, sizeFn, importPairState]
  · simp [get, importPairState, lookupEntry, remain_not_expired h1]
  · simp [get, importPairState, lookupEntry, hx, Ne.symm hx,
      remain_not_expired h2]

theorem export_pair {s : Cache V C} {k1 k2 : String} {r1 r2 : CacheRecord V C}
    (hs : s.entries = [(k1, r1), (k2, r2)]) (hx : k1 ≠ k2) {E : Int}
    (h1 : r1.expire = .inf) (h2 : r2.expire = .fin E) :
    exportJson s = [(k1, ⟨r1.value, .other⟩), (k2, ⟨r2.value, .num E⟩)] ∨
    exportJson s = [(k2, ⟨r2.value, .num E⟩), (k1, ⟨r1.value, .other⟩)] := by
  unfold exportJson
  rw [hs]
  rcases jsOwnKeys_pair k1 k2 r1 r2 with hk | hk
  · left
    rw [hk]
    simp [lookupEntry, hx, Ne.symm hx, h1, h2]
  · right
    rw [hk]
    simp [lookupEntry, hx, Ne.symm hx, h1, h2]

/-- The two validation conditions of `put`, spelled out. -/
theorem badTtl_iff (t : Option JSNum) :
    badTtl t = true ↔ ∃ tt, t = some tt ∧
      (tt = JSNum.nan ∨ jsLe tt (.fin 0) = true) := by
  cases t with
  | none => simp [badTtl]
  | some tt => cases tt <;> simp [badTtl, JSNum.isNaNb, jsLe]

theorem badTtl_false_iff (t : Option JSNum) :
    badTtl t = false ↔ ∀ tt, t = some tt →
      tt ≠ JSNum.nan ∧ jsLe tt (.fin 0) = false := by
  cases t with
  | none => simp [badTtl]
  | some tt => cases tt <;> simp [badTtl, JSNum.isNaNb, jsLe]

theorem badCb_iff (cb : Option (CbArg C)) :
    badCb cb = true ↔ cb = some CbArg.nonFunc := by
  cases cb with
  | none => simp [badCb]
  | some c => cases c <;> simp [badCb]

/-! ### The claims -/

/-- C1 (code_bug evaluation).  Importing an entry whose `expire` field is
the `"NaN"` sentinel produces a record with deadline `+Infinity` as the
claim says, but — contrary to the claim — `put` is called with TTL
`Infinity` (the guard `remainingTime <= 0` already skipped non-positive
values, so the `undefined` branch of `remainingTime > 0 ? remainingTime :
undefined` is dead code) and a `setTimeout` handle IS armed, with the
delay clamped by Node to 1 millisecond. -/
theorem c1_import_nan_arms_timer :
    (match importJson [("k", ({ value := 0, expire := ExpireField.other } : PlainRecord Nat))]
        false 0 (initCache (C := Unit)) with
     | .ok (s, _) => (lookupEntry s.entries "k").map
         (fun r => (r.expire, r.timeout.map Timer.delay))
     | .error _ => none) = some (JSNum.inf, some 1) := by
  decide

/-- C2 (counterexample).  The claimed invariant "deadline `+Infinity` iff
no pending timer" is false on a reachable state: `put("k", 0, Infinity)`
passes validation (`Infinity` is neither NaN nor `<= 0`), stores
`expire = Infinity + now = Infinity`, and still arms a timer. -/
theorem c2_counterexample :
    Reachable ((run (initCache (V := Nat) (C := Unit))
        [Action.putA "k" 0 (some JSNum.inf) none 0]).1) ∧
    ((lookupEntry ((run (initCache (V := Nat) (C := Unit))
        [Action.putA "k" 0 (some JSNum.inf) none 0]).1).entries "k").map
      (fun r => (r.expire, r.timeout.isSome))) = some (JSNum.inf, true) :=
  ⟨⟨[Action.putA "k" 0 (some JSNum.inf) none 0], rfl⟩, by decide⟩

/-- C2 (amended).  The direction that does hold in every reachable state:
a stored record with no pending timer has deadline `+Infinity`.  (The
converse fails, see the counterexample: an infinite TTL arms a timer
while the stored deadline is `+Infinity`.) -/
theorem c2_no_timer_implies_infinite {V C : Type} (s : Cache V C)
    (hs : Reachable s) (k : String) (r : CacheRecord V C)
    (hl : lookupEntry s.entries k = some r) (htm : r.timeout = none) :
    r.expire = JSNum.inf :=
  (reachable_wf hs).noTimerInf (k, r) (mem_of_lookup_eq_some hl) htm

/-- C2 (witness): the amended direction evaluated on the reachable state
after `put("k", 7)` with no TTL. -/
theorem c2_witness :
    lookupEntry ((run (initCache (V := Nat) (C := Unit))
        [Action.putA "k" 7 none none 5]).1).entries "k"
      = some { value := 7, expire := JSNum.inf, timeout := none } ∧
    ({ value := 7, expire := JSNum.inf, timeout := none } : CacheRecord Nat Unit).expire
      = JSNum.inf :=
  ⟨by decide,
   c2_no_timer_implies_infinite _ ⟨[Action.putA "k" 7 none none 5], rfl⟩ "k" _
     (by decide) rfl⟩

/-- C3 (counterexample).  `put` accepts TTL `Infinity` without raising,
although `Infinity` is a provided TTL that is not a finite positive
number — so "raises exactly when the TTL is not a finite positive number"
is false. -/
theorem c3_counterexample :
    (put (initCache (V := Nat) (C := Unit)) "k" 0 (some JSNum.inf) none 0).isOk = true ∧
    JSNum.inf.isFiniteb = false := by
  decide

/-- C3 (amended).  `put` raises "Cache timeout must be a positive number"
exactly when the provided TTL is NaN or `<= 0` under JS comparison
(`+Infinity` is accepted), raises "Cache timeout callback must be a
function" exactly when the TTL check passes and the provided callback is
not callable, and a raising `put` leaves the state completely
unchanged. -/
theorem c3_put_error_iff {V C : Type} (s : Cache V C) (k : String) (v : V)
    (t : Option JSNum) (cb : Option (CbArg C)) (now : Int) :
    (put s k v t cb now = Except.error "Cache timeout must be a positive number"
      ↔ ∃ tt, t = some tt ∧ (tt = JSNum.nan ∨ jsLe tt (.fin 0) = true)) ∧
    (put s k v t cb now = Except.error "Cache timeout callback must be a function"
      ↔ ((∀ tt, t = some tt → tt ≠ JSNum.nan ∧ jsLe tt (.fin 0) = false) ∧
         cb = some CbArg.nonFunc)) ∧
    ((∃ e, put s k v t cb now = Except.error e) ↔
      ((∃ tt, t = some tt ∧ (tt = JSNum.nan ∨ jsLe tt (.fin 0) = true)) ∨
       cb = some CbArg.nonFunc)) ∧
    (∀ e, put s k v t cb now = Except.error e →
      step s (Action.putA k v t cb now) = (s, [])) := by
  refine ⟨?_, ?_, ?_, ?_⟩
  · rw [← badTtl_iff t]
    by_cases h1 : badTtl t
    · simp [put, h1]
    · by_cases h2 : badCb cb <;> simp [put, h1, h2]
  · rw [← badTtl_false_iff t, ← badCb_iff cb]
    by_cases h1 : badTtl t
    · simp [put, h1]
    · by_cases h2 : badCb cb <;> simp [put, h1, h2]
  · rw [← badTtl_iff t, ← badCb_iff cb]
    by_cases h1 : badTtl t
    · simp [put, h1]
    · by_cases h2 : badCb cb <;> simp [put, h1, h2]
  · intro e he
    simp only [step]
    rw [he]

/-- C3 (witness): both error messages raised at concrete invalid inputs,
via the characterisation. -/
theorem c3_witness :
    put (initCache (V := Nat) (C := Unit)) "k" 0 (some (JSNum.fin (-1))) none 0
      = Except.error "Cache timeout must be a positive number" ∧
    put (initCache (V := Nat) (C := Unit)) "k" 0 (some (JSNum.fin 5))
        (some CbArg.nonFunc) 0
      = Except.error "Cache timeout callback must be a function" :=
  ⟨(c3_put_error_iff (initCache (V := Nat) (C := Unit)) "k" 0
      (some (JSNum.fin (-1))) none 0).1.mpr
    ⟨JSNum.fin (-1), rfl, Or.inr (by decide)⟩,
   (c3_put_error_iff (initCache (V := Nat) (C := Unit)) "k" 0
      (some (JSNum.fin 5)) (some CbArg.nonFunc) 0).2.1.mpr
    ⟨fun tt h => by cases h; exact ⟨by decide, by decide⟩, rfl⟩⟩

/-- C4 (counterexample).  The round-trip claim fails for all keys: when a
cached key is named "hasOwnProperty", the export succeeds but the import
throws `TypeError` on its first iteration (the parsed object's own
"hasOwnProperty" data property shadows `Object.prototype.hasOwnProperty`
in the loop guard), so nothing is retrievable from the fresh cache
instead of both keys with size 2. -/
theorem c4_counterexample :
    (match importJson (exportJson ((run (initCache (V := Nat) (C := Unit))
        [Action.putA "hasOwnProperty" 1 none none 0,
         Action.putA "b" 2 (some (.fin 10)) none 0]).1))
        false 5 (initCache (V := Nat) (C := Unit)) with
     | .ok _ => none
     | .error e => some e)
      = some "TypeError: cacheToImport.hasOwnProperty is not a function" := by
  decide

/-- C4 (amended).  Round-trip: after `put(k1, v1)` and `put(k2, v2, T)`
with a still-live deadline at import time — and neither key named
"hasOwnProperty" (with such a key the import throws, see the
counterexample) — exporting and importing into a fresh cache yields both
keys retrievable with their original values and size 2; and an entry
whose absolute deadline has already passed at import time (key not
"hasOwnProperty") is dropped, leaving the importing cache unchanged. -/
theorem c4_export_import_round_trip {V C : Type} :
    (∀ (k1 k2 : String) (v1 v2 : V) (T now1 now2 : Int),
      k1 ≠ k2 → k1 ≠ "hasOwnProperty" → k2 ≠ "hasOwnProperty" →
      0 < T → now2 < now1 + T →
      (match importJson
          (exportJson ((run (initCache (V := V) (C := C))
            [Action.putA k1 v1 none none now1,
             Action.putA k2 v2 (some (.fin T)) none now1]).1))
          false now2 (initCache (V := V) (C := C)) with
       | .ok (s3, n) => n = 2 ∧ (get s3 k1 now2).1 = some v1 ∧
           (get s3 k2 now2).1 = some v2 ∧ sizeFn s3 = 2
       | .error _ => False)) ∧
    (∀ (k : String) (v : V) (e now : Int) (s : Cache V C),
      k ≠ "hasOwnProperty" → e ≤ now →
      importJson [(k, ⟨v, .num e⟩)] false now s = .ok (s, sizeFn s)) := by
  constructor
  · intro k1 k2 v1 v2 T now1 now2 hx hn1 hn2 hT ht
    have hbT : badTtl (some (JSNum.fin T)) = false := by
      simp [badTtl, JSNum.isNaNb, jsLe]
      omega
    have hput1 : put (initCache (V := V) (C := C)) k1 v1 none none now1
        = .ok (putState initCache k1 v1 none none now1, v1) :=
      put_ok_of_valid rfl rfl
    have hput2 : put (putState (initCache (V := V) (C := C)) k1 v1 none none now1)
          k2 v2 (some (.fin T)) none now1
        = .ok (putState (putState initCache k1 v1 none none now1)
            k2 v2 (some (.fin T)) none now1, v2) :=
      put_ok_of_valid hbT rfl
    have hrun : (run (initCache (V := V) (C := C))
        [Action.putA k1 v1 none none now1,
         Action.putA k2 v2 (some (.fin T)) none now1]).1
        = putState (putState initCache k1 v1 none none now1)
            k2 v2 (some (.fin T)) none now1 := by
      simp only [run, step, hput1, hput2]
    have hentries : (putState (putState (initCache (V := V) (C := C)) k1 v1 none none now1) k2 v2 (some (.fin T)) none now1).entries = [(k1, { value := v1, expire := .inf, timeout := none }), (k2, { value := v2, expire := .fin (T + now1), timeout := some { id := 0, key := k2, value := v2, cb := none, delay := nodeDelay (.fin T) } })] := by
      simp [putState, putRecord, setEntry, lookupEntry, initCache, cbFun, jsAdd, hx]
    rw [hrun]
    have hc1 : jsLe (remainOf ExpireField.other now2) (.fin 0) = false := by
      simp [remainOf, jsLe]
    have hc2 : jsLe (remainOf (ExpireField.num (T + now1)) now2) (.fin 0) = false := by
      simp [remainOf, jsLe]
      omega
    rcases export_pair (E := T + now1) hentries hx rfl rfl with hexp | hexp
    · rw [hexp]
      have h := import_pair (C := C) k1 k2 v1 v2 ExpireField.other
        (ExpireField.num (T + now1)) now2 hx hn1 hn2 hc1 hc2
      rw [h.1]
      exact ⟨rfl, h.2.1, h.2.2.1, h.2.2.2⟩
    · rw [hexp]
      have h := import_pair (C := C) k2 k1 v2 v1 (ExpireField.num (T + now1))
        ExpireField.other now2 (Ne.symm hx) hn2 hn1 hc2 hc1
      rw [h.1]
      exact ⟨rfl, h.2.2.1, h.2.1, h.2.2.2⟩
  · intro k v e now s hk he
    have hg : jsLe (remainOf (.num e) now) (.fin 0) = true := by
      simp [remainOf, jsLe]
      omega
    simp [importJson, importLoop, shadowsHasOwn, hk, hg, sizeFn]

/-- C4 (witness): the round-trip at concrete keys and clocks, and a
concrete already-expired entry being dropped. -/
theorem c4_witness :
    (match importJson (exportJson ((run (initCache (V := Nat) (C := Unit))
        [Action.putA "a" 1 none none 0, Action.putA "b" 2 (some (.fin 10)) none 0]).1))
        false 5 (initCache (V := Nat) (C := Unit)) with
     | .ok (s3, n) => n = 2 ∧ (get s3 "a" 5).1 = some 1 ∧
         (get s3 "b" 5).1 = some 2 ∧ sizeFn s3 = 2
     | .error _ => False) ∧
    importJson [("c", ({ value := 7, expire := .num 3 } : PlainRecord Nat))] false 5
      (initCache (V := Nat) (C := Unit)) = .ok (initCache (V := Nat) (C := Unit), 0) :=
  ⟨(c4_export_import_round_trip (V := Nat) (C := Unit)).1 "a" "b" 1 2 10 0 5
     (by decide) (by decide) (by decide) (by decide) (by decide),
   (c4_export_import_round_trip (V := Nat) (C := Unit)).2 "c" 7 3 5 initCache
     (by decide) (by decide)⟩

/-- The record stored by `put("k", 7, 3)` at time 0: deadline 3, with an
armed timer.  Used by several witnesses. -/
def sampleExpiredRecord : CacheRecord Nat Unit :=
  { value := 7, expire := JSNum.fin 3,
    timeout := some { id := 0, key := "k", value := 7, cb := none, delay := 3 } }

/-- A concrete state holding one record whose deadline (3) can lie in the
past while its timer has not fired: the state after `put("k", 7, 3)` at
time 0. -/
def sampleExpired : Cache Nat Unit :=
  { entries := [("k", sampleExpiredRecord)],
    hitCount := 0, missCount := 0, size := 1, debug := false, nextId := 1 }

/-- A concrete state holding two never-expiring records under non-index
keys "a" and "b". -/
def sampleAB : Cache Nat Unit :=
  { entries := [("a", { value := 1, expire := JSNum.inf, timeout := none }), ("b", { value := 2, expire := JSNum.inf, timeout := none })],
    hitCount := 0, missCount := 0, size := 2, debug := false, nextId := 0 }

/-- C5.  `get` returns absent exactly when no record is stored or the
stored deadline is strictly before the current time, otherwise the stored
value; it never changes the mapping or the size, and it bumps the
miss/hit counter exactly when debug mode is on. -/
theorem c5_get_spec {V C : Type} (s : Cache V C) (k : String) (now : Int) :
    ((get s k now).1 = none ↔ lookupEntry s.entries k = none ∨
      ∃ r, lookupEntry s.entries k = some r ∧ jsLt r.expire (.fin now) = true) ∧
    (∀ r, lookupEntry s.entries k = some r → jsLt r.expire (.fin now) = false →
      (get s k now).1 = some r.value) ∧
    (get s k now).2.entries = s.entries ∧
    (get s k now).2.size = s.size ∧
    (s.debug = false → (get s k now).2.hitCount = s.hitCount ∧
      (get s k now).2.missCount = s.missCount) ∧
    (s.debug = true → (get s k now).1 = none →
      (get s k now).2.missCount = s.missCount + 1 ∧
      (get s k now).2.hitCount = s.hitCount) ∧
    (s.debug = true → ∀ v, (get s k now).1 = some v →
      (get s k now).2.hitCount = s.hitCount + 1 ∧
      (get s k now).2.missCount = s.missCount) := by
  cases hl : lookupEntry s.entries k with
  | none =>
      refine ⟨by simp [get, hl], by simp, by simp [get, hl],
        by simp [get, hl], ?_, ?_, ?_⟩
      · intro hd
        simp [get, hl, hd]
      · intro hd hn
        simp [get, hl, hd]
      · intro hd v hv
        simp [get, hl] at hv
  | some r =>
      by_cases hx : jsLt r.expire (.fin now) = true
      · refine ⟨by simp [get, hl, hx], ?_, by simp [get, hl, hx],
          by simp [get, hl, hx], ?_, ?_, ?_⟩
        · intro r2 hr2 hf
          cases hr2
          rw [hx] at hf
          cases hf
        · intro hd
          simp [get, hl, hx, hd]
        · intro hd hn
          simp [get, hl, hx, hd]
        · intro hd v hv
          simp [get, hl, hx] at hv
      · rw [Bool.not_eq_true] at hx
        refine ⟨by simp [get, hl, hx], ?_, by simp [get, hl, hx],
          by simp [get, hl, hx], ?_, ?_, ?_⟩
        · intro r2 hr2 hf
          cases hr2
          simp [get, hl, hx]
        · intro hd
          simp [get, hl, hx, hd]
        · intro hd hn
          simp [get, hl, hx] at hn
        · intro hd v hv
          simp [get, hl, hx, hd]

/-- C5 (witness): a hit on a live record and a miss on the same record
once its deadline has passed. -/
theorem c5_witness :
    (get sampleExpired "k" 1).1 = some 7 ∧ (get sampleExpired "k" 5).1 = none :=
  ⟨(c5_get_spec sampleExpired "k" 1).2.1 sampleExpiredRecord (by decide) (by decide),
   (c5_get_spec sampleExpired "k" 5).1.mpr
     (Or.inr ⟨sampleExpiredRecord, by decide, by decide⟩)⟩

/-- C6.  `clear` empties the mapping (cancelling every pending timer —
no timer handle survives and no callback event is emitted), zeroes the
size, and resets the hit/miss counters exactly when debug mode is on,
leaving them untouched otherwise. -/
theorem c6_clear_spec {V C : Type} (s : Cache V C) :
    (clear s).entries = [] ∧
    (clear s).size = 0 ∧
    armedIds (clear s).entries = [] ∧
    (step s Action.clearA).2 = [] ∧
    (clear s).hitCount = (if s.debug then 0 else s.hitCount) ∧
    (clear s).missCount = (if s.debug then 0 else s.missCount) ∧
    (clear s).debug = s.debug :=
  ⟨rfl, rfl, rfl, rfl, rfl, rfl, rfl⟩

/-- C7 (counterexample).  `Object.keys` puts array-index keys first in
numeric order, so after inserting "2" then "1" the enumeration is
["1", "2"] while the insertion order is ["2", "1"]: `keys()` is not
insertion order for all keys. -/
theorem c7_counterexample :
    keysFn ((run (initCache (V := Nat) (C := Unit))
      [Action.putA "2" 0 none none 0, Action.putA "1" 0 none none 0]).1) = ["1", "2"] ∧
    ((run (initCache (V := Nat) (C := Unit))
      [Action.putA "2" 0 none none 0, Action.putA "1" 0 none none 0]).1).entries.map
        Prod.fst = ["2", "1"] := by
  decide

/-- C7 (amended).  When no stored key is an array index (a canonical
numeral below 2^32 - 1), `keys()` is exactly the insertion order; and
overwriting an existing key with `put` never changes `keys()` (the
overwritten record keeps its position). -/
theorem c7_keys_order {V C : Type} (s : Cache V C) :
    ((∀ k ∈ s.entries.map Prod.fst, jsIndexOf k = none) →
      keysFn s = s.entries.map Prod.fst) ∧
    (∀ (k : String) (v : V) (t : Option JSNum) (cb : Option (CbArg C))
      (now : Int) (s2 : Cache V C) (v2 : V), k ∈ s.entries.map Prod.fst →
      put s k v t cb now = .ok (s2, v2) → keysFn s2 = keysFn s) := by
  constructor
  · intro h
    exact jsOwnKeys_of_no_index h
  · intro k v t cb now s2 v2 hk hok
    unfold put at hok
    by_cases h1 : badTtl t
    · simp [h1] at hok
    by_cases h2 : badCb cb
    · simp [h1, h2] at hok
    simp [h1, h2] at hok
    rw [← hok.1]
    show jsOwnKeys (setEntry s.entries k (putRecord s k v t cb now)) = keysFn s
    exact jsOwnKeys_congr (mapfst_set_mem _ hk)

/-- C7 (witness): insertion order for non-index keys, and stability of
`keys()` under an overwrite, on a concrete state. -/
theorem c7_witness :
    keysFn sampleAB = ["a", "b"] ∧
    keysFn (putState sampleAB "a" 9 none none 0) = keysFn sampleAB :=
  ⟨((c7_keys_order sampleAB).1 (by decide)).trans (by decide),
   (c7_keys_order sampleAB).2 "a" 9 none none 0 _ 9 (by decide)
     (put_ok_of_valid rfl rfl)⟩

/-- C8.  Callback discipline over every run from a fresh cache: each timer
id appears in the emitted callback events at most once (so a given record
is expired-with-callback at most once); `del`, `clear` and `put`
(overwrite included) never emit a callback invocation; and a firing timer
with a caller-supplied callback emits exactly one invocation, carrying the
key and the stored value that the registering `put` captured. -/
theorem c8_callback_once {V C : Type} :
    (∀ (acts : List (Action V C)) (i : Nat),
      (((run initCache acts).2).map Event.id).count i ≤ 1) ∧
    (∀ (s : Cache V C) (k : String), (step s (Action.delA k)).2 = []) ∧
    (∀ s : Cache V C, (step s Action.clearA).2 = []) ∧
    (∀ (s : Cache V C) (k : String) (v : V) (t : Option JSNum)
      (cb : Option (CbArg C)) (now : Int),
      (step s (Action.putA k v t cb now)).2 = []) ∧
    (∀ s : Cache V C, Reachable s → ∀ (k : String) (r : CacheRecord V C)
      (tm : Timer V C) (c : C), lookupEntry s.entries k = some r →
      r.timeout = some tm → tm.cb = some c →
      (step s (Action.fireA k)).2
        = [{ id := tm.id, key := k, value := r.value, cb := c }]) := by
  refine ⟨?_, ?_, ?_, ?_, ?_⟩
  · intro acts i
    exact List.nodup_iff_count_le_one.mp (run_ids_nodup acts) i
  · intro s k
    rfl
  · intro s
    rfl
  · intro s k v t cb now
    cases hput : put s k v t cb now with
    | error e => simp [step, hput]
    | ok p => simp [step, hput]
  · intro s hs k r tm c hl htm hcb
    have hw := reachable_wf hs
    have h1 := hw.timerOwn (k, r) (mem_of_lookup_eq_some hl) tm htm
    simp only [step, hl, htm, hcb]
    rw [h1.1, h1.2.1]

/-- C8 (witness): a concrete put-then-fire run emits the single callback
invocation with the registered key and value, and its timer id is counted
at most once. -/
theorem c8_witness :
    ((((run (initCache (V := Nat) (C := Bool))
        [Action.putA "k" 7 (some (JSNum.fin 5)) (some (CbArg.func true)) 0,
         Action.fireA "k"]).2).map Event.id).count 0 ≤ 1) ∧
    (step ({ entries := [("k", { value := 7, expire := JSNum.fin 5, timeout := some { id := 0, key := "k", value := 7, cb := some true, delay := 5 } })], hitCount := 0, missCount := 0, size := 1, debug := false, nextId := 1 } : Cache Nat Bool)
        (Action.fireA "k")).2
      = [{ id := 0, key := "k", value := 7, cb := true }] :=
  ⟨c8_callback_once.1
     [Action.putA "k" 7 (some (JSNum.fin 5)) (some (CbArg.func true)) 0,
      Action.fireA "k"] 0,
   c8_callback_once.2.2.2.2 _
     ⟨[Action.putA "k" 7 (some (JSNum.fin 5)) (some (CbArg.func true)) 0], by decide⟩
     "k"
     { value := 7, expire := JSNum.fin 5, timeout := some { id := 0, key := "k", value := 7, cb := some true, delay := 5 } }
     { id := 0, key := "k", value := 7, cb := some true, delay := 5 }
     true (by decide) (by decide) (by decide)⟩

/-- A concrete state holding one logically expired record under the key
"hasOwnProperty" (the state after `put("hasOwnProperty", 7, 3)` at time
0; its deadline 3 lies in the past at time 200). -/
def sampleHasOwn : Cache Nat Unit :=
  { entries := [("hasOwnProperty", { value := 7, expire := JSNum.fin 3, timeout := some { id := 0, key := "hasOwnProperty", value := 7, cb := none, delay := 3 } })],
    hitCount := 0, missCount := 0, size := 1, debug := false, nextId := 1 }

/-- C9 (counterexample).  The claim fails for the key "hasOwnProperty":
the target's storage does contain a record for that key, but instead of
skipping the entry and returning the size, `importJson` throws
`TypeError` on its first iteration, because the parsed object's own
"hasOwnProperty" data property shadows `Object.prototype.hasOwnProperty`
in the loop guard. -/
theorem c9_counterexample :
    (lookupEntry sampleHasOwn.entries "hasOwnProperty").isSome = true ∧
    (match importJson
        [("hasOwnProperty", ({ value := 9, expire := ExpireField.num 500 } : PlainRecord Nat))]
        true 200 sampleHasOwn with
     | .ok _ => none
     | .error e => some e)
      = some "TypeError: cacheToImport.hasOwnProperty is not a function" := by
  decide

/-- C9 (amended).  For a key other than "hasOwnProperty" (with that key
the import throws, see the counterexample), `importJson` with
`skipDuplicates: true` skips an imported key whenever the target's raw
storage holds any record for it — the guard is `this._cache[key]`, not
`get` — so even a record whose deadline has already passed (but whose
timer has not fired) blocks the import, and the state is returned
unchanged with the imported value discarded. -/
theorem c9_skip_duplicates {V C : Type} (s : Cache V C) (k : String)
    (pr : PlainRecord V) (now : Int) (r : CacheRecord V C)
    (hk : k ≠ "hasOwnProperty") (hl : lookupEntry s.entries k = some r) :
    importJson [(k, pr)] true now s = .ok (s, sizeFn s) := by
  simp [importJson, importLoop, shadowsHasOwn, hk, hl]

/-- C9 (witness): a logically expired existing record (`get` reports the
key absent) still blocks the import of a fresh value for the key. -/
theorem c9_witness :
    importJson [("k", ({ value := 9, expire := ExpireField.num 500 } : PlainRecord Nat))]
        true 200 sampleExpired = .ok (sampleExpired, 1) ∧
    (get sampleExpired "k" 200).1 = none :=
  ⟨c9_skip_duplicates sampleExpired "k" _ 200 sampleExpiredRecord (by decide)
     (by decide),
   by decide⟩

/-- C10.  `del` on a key whose stored deadline has already passed (timer
not yet fired) returns true and decrements the size — it checks only raw
storage presence — even though `get` at the same instant reports the key
absent. -/
theorem c10_del_expired {V C : Type} (s : Cache V C) (k : String)
    (r : CacheRecord V C) (e now : Int)
    (hl : lookupEntry s.entries k = some r) (he : r.expire = .fin e)
    (hlt : e < now) :
    (del s k).2 = true ∧ (del s k).1.size = s.size - 1 ∧
    (get s k now).1 = none ∧ (del s k).1.entries = removeEntry s.entries k := by
  have hd : del s k = (({ s with entries := removeEntry s.entries k, size := s.size - 1 } : Cache V C), true) := by
    unfold del
    rw [hl]
  rw [hd]
  refine ⟨rfl, rfl, ?_, rfl⟩
  simp [get, hl, he, jsLt, hlt]

/-- C10 (witness): deleting the logically expired record of
`sampleExpired` at time 99 returns true and empties the cache, while
`get` at the same time reports the key absent. -/
theorem c10_witness :
    (del sampleExpired "k").2 = true ∧ (del sampleExpired "k").1.size = 0 ∧
    (get sampleExpired "k" 99).1 = none :=
  have h := c10_del_expired sampleExpired "k" sampleExpiredRecord 3 99
    (by decide) (by decide) (by decide)
  ⟨h.1, h.2.1.trans (by decide), h.2.2.1⟩

end TsNodeCache
